import Mathlib

/-!
Verification of the WASI-crypto proof-of-concept symmetric engine
(`proposals/poc/implementation/src/symmetric/mod.rs` and the spec of its
backends).  Rust `Vec<u8>` buffers are modelled as `List Nat` (byte values),
`u64` as `Nat` (no arithmetic is ever performed on these values, so the wrap
width is irrelevant), and fallible operations return `Except CryptoError`.
The `Arc<Mutex<...>>` sharing of the options object is orthogonal to the
functional contract verified here, so options operations are modelled as pure
functions on the inner record.
-/

deriving instance DecidableEq for Except

/-- Error kinds of the crate (`error.rs` is outside the extracted sources;
the variants are those referenced by `symmetric/mod.rs` and the spec's error
taxonomy in section 7). -/
inductive CryptoError where
  | UnsupportedAlgorithm
  | UnsupportedOption
  | OptionNotSet
  | InvalidKey
  | KeyRequired
  | KeyNotSupported
  | InvalidLength
  | Overflow
  | InvalidOperation
  | InvalidTag
  | NotFound
  deriving DecidableEq, Repr

/-- The closed enumeration `SymmetricAlgorithm` from `symmetric/mod.rs`. -/
inductive SymmetricAlgorithm where
  | None
  | HmacSha256
  | HmacSha512
  | Sha256
  | Sha512
  | Sha512_256
  | Aes128Gcm
  | Aes256Gcm
  deriving DecidableEq, Repr

/-- The `TryFrom<&str> for SymmetricAlgorithm` implementation from
`symmetric/mod.rs`: exact, case-sensitive match against the seven canonical
names, `UnsupportedAlgorithm` otherwise.  (Rust's sequential `match` on string
literals is rendered as a chain of equality tests.) -/
def SymmetricAlgorithm.tryFrom (algStr : String) : Except CryptoError SymmetricAlgorithm :=
  if algStr = "HMAC/SHA-256" then .ok .HmacSha256
  else if algStr = "HMAC/SHA-512" then .ok .HmacSha512
  else if algStr = "SHA-256" then .ok .Sha256
  else if algStr = "SHA-512" then .ok .Sha512
  else if algStr = "SHA-512/256" then .ok .Sha512_256
  else if algStr = "AES-128-GCM" then .ok .Aes128Gcm
  else if algStr = "AES-256-GCM" then .ok .Aes256Gcm
  else .error .UnsupportedAlgorithm

/-- The `SymmetricOptionsInner` struct from `symmetric/mod.rs`: six optional
fields, all initially unset (`Default`). -/
structure SymmetricOptionsInner where
  context : Option (List Nat) := none
  salt : Option (List Nat) := none
  nonce : Option (List Nat) := none
  memory_limit : Option Nat := none
  ops_limit : Option Nat := none
  parallelism : Option Nat := none
  deriving DecidableEq, Repr

/-- The empty options object (`SymmetricOptions::default`). -/
def SymmetricOptionsInner.default : SymmetricOptionsInner := {}

/-- Rust's `str::to_lowercase` as used in `symmetric/mod.rs`.  The recognized
option names are plain ASCII, and on ASCII strings Rust's Unicode lowercasing
agrees with per-character ASCII lowercasing (`Char.toLower`), applied here to
the string's character list. -/
def rustToLowercase (s : String) : String := ⟨s.data.map Char.toLower⟩

/-- The `OptionsLike::set` implementation of `SymmetricOptions` from
`symmetric/mod.rs`: lowercase the name, store the byte value in the matching
string-option field, `UnsupportedOption` for any other name.  The Rust method
takes `&mut self` and returns `Result<(), CryptoError>`; it is embedded as a
function returning the result together with the post-call record (the `bail!`
on an unrecognized name happens before any field is written, so the record is
returned unchanged on that path). -/
def SymmetricOptionsInner.set (inner : SymmetricOptionsInner) (name : String)
    (value : List Nat) : Except CryptoError Unit × SymmetricOptionsInner :=
  let n := rustToLowercase name
  if n = "context" then (.ok (), { inner with context := some value })
  else if n = "salt" then (.ok (), { inner with salt := some value })
  else if n = "nonce" then (.ok (), { inner with nonce := some value })
  else (.error .UnsupportedOption, inner)

/-- The `OptionsLike::get` implementation of `SymmetricOptions` from
`symmetric/mod.rs`: lowercase the name, select the matching string-option
field (`UnsupportedOption` otherwise), then `ok_or(OptionNotSet)`. -/
def SymmetricOptionsInner.get (inner : SymmetricOptionsInner) (name : String) :
    Except CryptoError (List Nat) :=
  let n := rustToLowercase name
  if n = "context" then inner.context.elim (.error .OptionNotSet) .ok
  else if n = "salt" then inner.salt.elim (.error .OptionNotSet) .ok
  else if n = "nonce" then inner.nonce.elim (.error .OptionNotSet) .ok
  else .error .UnsupportedOption

/-- The `OptionsLike::set_u64` implementation of `SymmetricOptions` from
`symmetric/mod.rs`: same contract and embedding as `set`, over the integer
namespace. -/
def SymmetricOptionsInner.set_u64 (inner : SymmetricOptionsInner) (name : String)
    (value : Nat) : Except CryptoError Unit × SymmetricOptionsInner :=
  let n := rustToLowercase name
  if n = "memory_limit" then (.ok (), { inner with memory_limit := some value })
  else if n = "ops_limit" then (.ok (), { inner with ops_limit := some value })
  else if n = "parallelism" then (.ok (), { inner with parallelism := some value })
  else (.error .UnsupportedOption, inner)

/-- The `OptionsLike::get_u64` implementation of `SymmetricOptions` from
`symmetric/mod.rs`: same contract as `get` over the integer namespace. -/
def SymmetricOptionsInner.get_u64 (inner : SymmetricOptionsInner) (name : String) :
    Except CryptoError Nat :=
  let n := rustToLowercase name
  if n = "memory_limit" then inner.memory_limit.elim (.error .OptionNotSet) .ok
  else if n = "ops_limit" then inner.ops_limit.elim (.error .OptionNotSet) .ok
  else if n = "parallelism" then inner.parallelism.elim (.error .OptionNotSet) .ok
  else .error .UnsupportedOption

/-- The seven canonical algorithm names, in the order matched by the source. -/
def canonicalNames : List String :=
  ["HMAC/SHA-256", "HMAC/SHA-512", "SHA-256", "SHA-512", "SHA-512/256",
   "AES-128-GCM", "AES-256-GCM"]

/-- The recognized string-option names (lowercased), from
`SymmetricOptions::set`/`get`. -/
def stringOptionNames : List String := ["context", "salt", "nonce"]

/-- The recognized integer-option names (lowercased), from
`SymmetricOptions::set_u64`/`get_u64`. -/
def intOptionNames : List String := ["memory_limit", "ops_limit", "parallelism"]

/-- C5: for every input string, algorithm parsing succeeds exactly on the
seven canonical names, each mapping by exact, case-sensitive match to its
respective identifier, and fails with `UnsupportedAlgorithm` on every other
string. -/
theorem parse_canonical (s : String) :
    ((SymmetricAlgorithm.tryFrom s).isOk = true ↔ s ∈ canonicalNames) ∧
    (s ∉ canonicalNames →
      SymmetricAlgorithm.tryFrom s = .error .UnsupportedAlgorithm) ∧
    SymmetricAlgorithm.tryFrom "HMAC/SHA-256" = .ok .HmacSha256 ∧
    SymmetricAlgorithm.tryFrom "HMAC/SHA-512" = .ok .HmacSha512 ∧
    SymmetricAlgorithm.tryFrom "SHA-256" = .ok .Sha256 ∧
    SymmetricAlgorithm.tryFrom "SHA-512" = .ok .Sha512 ∧
    SymmetricAlgorithm.tryFrom "SHA-512/256" = .ok .Sha512_256 ∧
    SymmetricAlgorithm.tryFrom "AES-128-GCM" = .ok .Aes128Gcm ∧
    SymmetricAlgorithm.tryFrom "AES-256-GCM" = .ok .Aes256Gcm := by
  have hno : s ∉ canonicalNames →
      SymmetricAlgorithm.tryFrom s = .error .UnsupportedAlgorithm := by
    intro h
    simp only [canonicalNames, List.mem_cons, List.not_mem_nil, or_false,
      not_or] at h
    obtain ⟨h1, h2, h3, h4, h5, h6, h7⟩ := h
    simp [SymmetricAlgorithm.tryFrom, h1, h2, h3, h4, h5, h6, h7]
  refine ⟨⟨?_, ?_⟩, hno, rfl, rfl, rfl, rfl, rfl, rfl, rfl⟩
  · intro hok
    by_contra hmem
    rw [hno hmem] at hok
    simp [Except.isOk, Except.toBool] at hok
  · intro hmem
    simp only [canonicalNames, List.mem_cons, List.not_mem_nil, or_false] at hmem
    rcases hmem with h | h | h | h | h | h | h <;> subst h <;> rfl

/-- Witness for C5 at concrete inputs: "SHA-256" parses and "sha-256" (wrong
case) is rejected. -/
theorem parse_canonical_witness :
    SymmetricAlgorithm.tryFrom "SHA-256" = .ok .Sha256 ∧
    SymmetricAlgorithm.tryFrom "sha-256" = .error .UnsupportedAlgorithm := by
  refine ⟨(parse_canonical "SHA-256").2.2.2.2.1, (parse_canonical "sha-256").2.1 ?_⟩
  decide

/-- C7: `get` and `get_u64` distinguish the two error cases: a name outside
the corresponding (disjoint) namespace fails `UnsupportedOption` — in
particular an integer-namespace name given to `get`, and a string-namespace
name given to `get_u64` — and a recognized name whose option was never set
fails `OptionNotSet`. -/
theorem options_get_error_cases (inner : SymmetricOptionsInner) (name : String) :
    (rustToLowercase name ∉ stringOptionNames →
      inner.get name = .error .UnsupportedOption) ∧
    (rustToLowercase name ∉ intOptionNames →
      inner.get_u64 name = .error .UnsupportedOption) ∧
    (rustToLowercase name ∈ intOptionNames →
      inner.get name = .error .UnsupportedOption) ∧
    (rustToLowercase name ∈ stringOptionNames →
      inner.get_u64 name = .error .UnsupportedOption) ∧
    (rustToLowercase name = "context" → inner.context = none →
      inner.get name = .error .OptionNotSet) ∧
    (rustToLowercase name = "salt" → inner.salt = none →
      inner.get name = .error .OptionNotSet) ∧
    (rustToLowercase name = "nonce" → inner.nonce = none →
      inner.get name = .error .OptionNotSet) ∧
    (rustToLowercase name = "memory_limit" → inner.memory_limit = none →
      inner.get_u64 name = .error .OptionNotSet) ∧
    (rustToLowercase name = "ops_limit" → inner.ops_limit = none →
      inner.get_u64 name = .error .OptionNotSet) ∧
    (rustToLowercase name = "parallelism" → inner.parallelism = none →
      inner.get_u64 name = .error .OptionNotSet) := by
  have hs : rustToLowercase name ∉ stringOptionNames →
      inner.get name = .error .UnsupportedOption := by
    intro h
    simp only [stringOptionNames, List.mem_cons, List.not_mem_nil, or_false,
      not_or] at h
    obtain ⟨h1, h2, h3⟩ := h
    simp [SymmetricOptionsInner.get, h1, h2, h3]
  have hi : rustToLowercase name ∉ intOptionNames →
      inner.get_u64 name = .error .UnsupportedOption := by
    intro h
    simp only [intOptionNames, List.mem_cons, List.not_mem_nil, or_false,
      not_or] at h
    obtain ⟨h1, h2, h3⟩ := h
    simp [SymmetricOptionsInner.get_u64, h1, h2, h3]
  refine ⟨hs, hi, ?_, ?_, ?_, ?_, ?_, ?_, ?_, ?_⟩
  · intro h
    refine hs ?_
    intro hmem
    simp only [intOptionNames, List.mem_cons, List.not_mem_nil, or_false] at h
    simp only [stringOptionNames, List.mem_cons, List.not_mem_nil, or_false] at hmem
    rcases h with h | h | h <;> rcases hmem with hm | hm | hm <;>
      rw [h] at hm <;> simp at hm
  · intro h
    refine hi ?_
    intro hmem
    simp only [stringOptionNames, List.mem_cons, List.not_mem_nil, or_false] at h
    simp only [intOptionNames, List.mem_cons, List.not_mem_nil, or_false] at hmem
    rcases h with h | h | h <;> rcases hmem with hm | hm | hm <;>
      rw [h] at hm <;> simp at hm
  · intro h hnone
    simp [SymmetricOptionsInner.get, h, hnone]
  · intro h hnone
    simp [SymmetricOptionsInner.get, h, hnone]
  · intro h hnone
    simp [SymmetricOptionsInner.get, h, hnone]
  · intro h hnone
    simp [SymmetricOptionsInner.get_u64, h, hnone]
  · intro h hnone
    simp [SymmetricOptionsInner.get_u64, h, hnone]
  · intro h hnone
    simp [SymmetricOptionsInner.get_u64, h, hnone]

/-- Witness for C7 at concrete inputs: on the empty options object, `get` of
an unknown name fails `UnsupportedOption`, `get` of the integer-namespace name
"ops_limit" fails `UnsupportedOption`, and `get` of the recognized but unset
name "salt" fails `OptionNotSet`. -/
theorem options_get_error_cases_witness :
    SymmetricOptionsInner.default.get "bogus" = .error .UnsupportedOption ∧
    SymmetricOptionsInner.default.get "ops_limit" = .error .UnsupportedOption ∧
    SymmetricOptionsInner.default.get_u64 "Nonce" = .error .UnsupportedOption ∧
    SymmetricOptionsInner.default.get "salt" = .error .OptionNotSet := by
  refine ⟨(options_get_error_cases SymmetricOptionsInner.default "bogus").1 (by decide),
    (options_get_error_cases SymmetricOptionsInner.default "ops_limit").2.2.1 (by decide),
    (options_get_error_cases SymmetricOptionsInner.default "Nonce").2.2.2.1 (by decide),
    (options_get_error_cases SymmetricOptionsInner.default "salt").2.2.2.2.2.1
      (by decide) rfl⟩

/-- C8: for every name that lowercases to a recognized string option and every
byte value, `set` succeeds, and a subsequent `get` through any name that
lowercases to the same option returns exactly that value; the same round-trip
holds for `set_u64`/`get_u64` on the integer options. -/
theorem options_set_get_roundtrip (inner : SymmetricOptionsInner)
    (name name' : String) (v : List Nat) (u : Nat) :
    (rustToLowercase name = "context" → rustToLowercase name' = "context" →
      (inner.set name v).1 = .ok () ∧ (inner.set name v).2.get name' = .ok v) ∧
    (rustToLowercase name = "salt" → rustToLowercase name' = "salt" →
      (inner.set name v).1 = .ok () ∧ (inner.set name v).2.get name' = .ok v) ∧
    (rustToLowercase name = "nonce" → rustToLowercase name' = "nonce" →
      (inner.set name v).1 = .ok () ∧ (inner.set name v).2.get name' = .ok v) ∧
    (rustToLowercase name = "memory_limit" → rustToLowercase name' = "memory_limit" →
      (inner.set_u64 name u).1 = .ok () ∧
        (inner.set_u64 name u).2.get_u64 name' = .ok u) ∧
    (rustToLowercase name = "ops_limit" → rustToLowercase name' = "ops_limit" →
      (inner.set_u64 name u).1 = .ok () ∧
        (inner.set_u64 name u).2.get_u64 name' = .ok u) ∧
    (rustToLowercase name = "parallelism" → rustToLowercase name' = "parallelism" →
      (inner.set_u64 name u).1 = .ok () ∧
        (inner.set_u64 name u).2.get_u64 name' = .ok u) := by
  refine ⟨?_, ?_, ?_, ?_, ?_, ?_⟩ <;> intro h h' <;>
    simp [SymmetricOptionsInner.set, SymmetricOptionsInner.get,
      SymmetricOptionsInner.set_u64, SymmetricOptionsInner.get_u64, h, h']

/-- Witness for C8 at concrete inputs: setting "CoNtExt" on the empty options
object and reading back "CONTEXT" returns the stored bytes; setting
"OPS_LIMIT" and reading back "ops_limit" returns the stored integer. -/
theorem options_set_get_roundtrip_witness :
    (SymmetricOptionsInner.default.set "CoNtExt" [1, 2, 3]).1 = .ok () ∧
    ((SymmetricOptionsInner.default.set "CoNtExt" [1, 2, 3]).2.get "CONTEXT" =
      .ok [1, 2, 3]) ∧
    (SymmetricOptionsInner.default.set_u64 "OPS_LIMIT" 77).1 = .ok () ∧
    ((SymmetricOptionsInner.default.set_u64 "OPS_LIMIT" 77).2.get_u64 "ops_limit" =
      .ok 77) := by
  have h1 := (options_set_get_roundtrip SymmetricOptionsInner.default
    "CoNtExt" "CONTEXT" [1, 2, 3] 77).1 (by decide) (by decide)
  have h2 := (options_set_get_roundtrip SymmetricOptionsInner.default
    "OPS_LIMIT" "ops_limit" [1, 2, 3] 77).2.2.2.2.1 (by decide) (by decide)
  exact ⟨h1.1, h1.2, h2.1, h2.2⟩

/-- C10: on a successful `set`/`set_u64` only the single field named by the
lowercased option name is modified (the record-update equalities pin every
other field to its previous value), and on failure with `UnsupportedOption`
the returned record is the input record, all six fields unchanged. -/
theorem options_set_frame (inner : SymmetricOptionsInner) (name : String)
    (v : List Nat) (u : Nat) :
    (rustToLowercase name = "context" →
      inner.set name v = (.ok (), { inner with context := some v })) ∧
    (rustToLowercase name = "salt" →
      inner.set name v = (.ok (), { inner with salt := some v })) ∧
    (rustToLowercase name = "nonce" →
      inner.set name v = (.ok (), { inner with nonce := some v })) ∧
    (rustToLowercase name ∉ stringOptionNames →
      inner.set name v = (.error .UnsupportedOption, inner)) ∧
    (rustToLowercase name = "memory_limit" →
      inner.set_u64 name u = (.ok (), { inner with memory_limit := some u })) ∧
    (rustToLowercase name = "ops_limit" →
      inner.set_u64 name u = (.ok (), { inner with ops_limit := some u })) ∧
    (rustToLowercase name = "parallelism" →
      inner.set_u64 name u = (.ok (), { inner with parallelism := some u })) ∧
    (rustToLowercase name ∉ intOptionNames →
      inner.set_u64 name u = (.error .UnsupportedOption, inner)) := by
  refine ⟨?_, ?_, ?_, ?_, ?_, ?_, ?_, ?_⟩
  · intro h; simp [SymmetricOptionsInner.set, h]
  · intro h; simp [SymmetricOptionsInner.set, h]
  · intro h; simp [SymmetricOptionsInner.set, h]
  · intro h
    simp only [stringOptionNames, List.mem_cons, List.not_mem_nil, or_false,
      not_or] at h
    obtain ⟨h1, h2, h3⟩ := h
    simp [SymmetricOptionsInner.set, h1, h2, h3]
  · intro h; simp [SymmetricOptionsInner.set_u64, h]
  · intro h; simp [SymmetricOptionsInner.set_u64, h]
  · intro h; simp [SymmetricOptionsInner.set_u64, h]
  · intro h
    simp only [intOptionNames, List.mem_cons, List.not_mem_nil, or_false,
      not_or] at h
    obtain ⟨h1, h2, h3⟩ := h
    simp [SymmetricOptionsInner.set_u64, h1, h2, h3]

/-- Witness for C10 at concrete inputs: a successful `set` of "Salt" updates
exactly the salt field, and a failed `set` of "memory_limit" (an
integer-namespace name given to the string-namespace `set`) returns the
record unchanged. -/
theorem options_set_frame_witness :
    SymmetricOptionsInner.default.set "Salt" [9] =
      (.ok (), { SymmetricOptionsInner.default with salt := some [9] }) ∧
    SymmetricOptionsInner.default.set "memory_limit" [9] =
      (.error .UnsupportedOption, SymmetricOptionsInner.default) := by
  exact ⟨(options_set_frame SymmetricOptionsInner.default "Salt" [9] 0).2.1
      (by decide),
    (options_set_frame SymmetricOptionsInner.default "memory_limit" [9] 0).2.2.2.1
      (by decide)⟩

/-- Bitwise OR of two naturals is zero exactly when both are zero. -/
theorem lor_eq_zero_iff (a b : Nat) : a ||| b = 0 ↔ a = 0 ∧ b = 0 := by
  constructor
  · intro h
    constructor <;> (apply Nat.eq_of_testBit_eq; intro i)
    · have ht : (a ||| b).testBit i = false := by rw [h]; simp
      simp only [Nat.testBit_or, Bool.or_eq_false_iff] at ht
      simp [ht.1]
    · have ht : (a ||| b).testBit i = false := by rw [h]; simp
      simp only [Nat.testBit_or, Bool.or_eq_false_iff] at ht
      simp [ht.2]
  · rintro ⟨rfl, rfl⟩
    rfl

/-- A left fold of bitwise OR is zero exactly when the accumulator and every
list element are zero. -/
theorem foldl_lor_eq_zero (l : List Nat) (acc : Nat) :
    l.foldl Nat.lor acc = 0 ↔ acc = 0 ∧ ∀ x ∈ l, x = 0 := by
  induction l generalizing acc with
  | nil => simp
  | cons h t ih =>
    rw [List.foldl_cons, ih]
    have : Nat.lor acc h = acc ||| h := rfl
    rw [this, lor_eq_zero_iff]
    constructor
    · rintro ⟨⟨h1, h2⟩, h3⟩
      refine ⟨h1, ?_⟩
      intro x hx
      rcases List.mem_cons.mp hx with rfl | hm
      · exact h2
      · exact h3 x hm
    · rintro ⟨h1, h2⟩
      exact ⟨⟨h1, h2 h (List.mem_cons_self h t)⟩,
        fun x hx => h2 x (List.mem_cons_of_mem h hx)⟩

/-- Zipping a list with itself under XOR yields only zeros. -/
theorem zipWith_xor_self (a : List Nat) : ∀ x ∈ List.zipWith Nat.xor a a, x = 0 := by
  induction a with
  | nil => simp
  | cons h t ih =>
    intro x hx
    rcases List.mem_cons.mp hx with rfl | hm
    · exact Nat.xor_self h
    · exact ih x hm

/-- Equal-length lists whose pointwise XORs are all zero are equal. -/
theorem zipWith_xor_eq_zero (a b : List Nat) (hlen : a.length = b.length)
    (h : ∀ x ∈ List.zipWith Nat.xor a b, x = 0) : a = b := by
  induction a generalizing b with
  | nil =>
    cases b with
    | nil => rfl
    | cons y ys => simp at hlen
  | cons x xs ih =>
    cases b with
    | nil => simp at hlen
    | cons y ys =>
      simp only [List.zipWith_cons_cons] at h
      have hx : x = y := Nat.xor_eq_zero.mp (h _ (List.mem_cons_self _ _))
      have ht : xs = ys := ih ys (by simpa using hlen)
        (fun z hz => h z (List.mem_cons_of_mem _ hz))
      rw [hx, ht]

/-- Modelled from the spec: `tag.rs` is not under the extracted sources.  The
constant-time byte comparison of section 4.6 is specified in the Design Notes
(section 9) as a fixed-iteration accumulation of byte differences — the
bitwise OR of the pointwise XORs — together with a length check. -/
def constantTimeEq (a b : List Nat) : Bool :=
  a.length == b.length && (List.zipWith Nat.xor a b).foldl Nat.lor 0 == 0

/-- The constant-time comparison is functionally an equality test. -/
theorem constantTimeEq_iff (a b : List Nat) : constantTimeEq a b = true ↔ a = b := by
  unfold constantTimeEq
  simp only [Bool.and_eq_true, beq_iff_eq]
  constructor
  · rintro ⟨hlen, hfold⟩
    exact zipWith_xor_eq_zero a b hlen ((foldl_lor_eq_zero _ 0).mp hfold).2
  · rintro rfl
    exact ⟨rfl, (foldl_lor_eq_zero _ 0).mpr ⟨rfl, zipWith_xor_self a⟩⟩

/-- Modelled from the spec: `tag.rs` is not under the extracted sources.  A
`SymmetricTag` owns the raw bytes of a computed authentication tag or digest
(section 3 and section 4.6). -/
structure SymmetricTag where
  raw : List Nat
  deriving DecidableEq, Repr

/-- Modelled from the spec: `tag.rs` is not under the extracted sources.
Section 4.6: `verify(tag, expected_bytes)` fails `InvalidTag` if lengths or
content differ, using the constant-time comparison. -/
def SymmetricTag.verify (tag : SymmetricTag) (expected : List Nat) :
    Except CryptoError Unit :=
  if constantTimeEq tag.raw expected then .ok () else .error .InvalidTag

/-- C9: for every tag and every caller-supplied byte sequence, `verify`
succeeds exactly when the bytes have the same length and content as the tag's
raw bytes, and fails with `InvalidTag` both on length mismatch and on content
mismatch. -/
theorem tag_verify_iff (tag : SymmetricTag) (expected : List Nat) :
    (tag.verify expected = .ok () ↔ expected = tag.raw) ∧
    (expected ≠ tag.raw → tag.verify expected = .error .InvalidTag) ∧
    (expected.length ≠ tag.raw.length → tag.verify expected = .error .InvalidTag) := by
  have key : tag.verify expected =
      (if expected = tag.raw then Except.ok () else Except.error CryptoError.InvalidTag) := by
    unfold SymmetricTag.verify
    by_cases h : expected = tag.raw
    · rw [if_pos ((constantTimeEq_iff tag.raw expected).mpr h.symm), if_pos h]
    · rw [if_neg (fun hc => h ((constantTimeEq_iff tag.raw expected).mp hc).symm),
        if_neg h]
  refine ⟨?_, ?_, ?_⟩
  · rw [key]
    by_cases h : expected = tag.raw
    · simp [h]
    · simp [h]
  · intro h
    rw [key, if_neg h]
  · intro h
    have hne : expected ≠ tag.raw := fun he => h (by rw [he])
    rw [key, if_neg hne]

/-- Witness for C9 at concrete inputs: matching bytes verify, a content
mismatch and a length mismatch both fail with InvalidTag. -/
theorem tag_verify_iff_witness :
    (SymmetricTag.mk [1, 2]).verify [1, 2] = .ok () ∧
    (SymmetricTag.mk [1, 2]).verify [1, 3] = .error .InvalidTag ∧
    (SymmetricTag.mk [1, 2]).verify [1] = .error .InvalidTag :=
  ⟨(tag_verify_iff ⟨[1, 2]⟩ [1, 2]).1.mpr rfl,
    (tag_verify_iff ⟨[1, 2]⟩ [1, 3]).2.1 (by decide),
    (tag_verify_iff ⟨[1, 2]⟩ [1]).2.2 (by decide)⟩

/-- Modelled from the spec: `key.rs` is not under the extracted sources.  A
`SymmetricKey` owns raw key bytes and is tagged with the algorithm identifier
it was created for (section 3). -/
structure SymmetricKey where
  alg : SymmetricAlgorithm
  raw : List Nat
  deriving DecidableEq, Repr

/-- Backend family of an algorithm; section 3 invariant: every non-`None`
identifier maps to exactly one of hash, MAC, or AEAD. -/
inductive AlgFamily where
  | hash
  | mac
  | aead
  | noneFamily
  deriving DecidableEq, Repr

/-- The family of each algorithm identifier (section 4.5 table). -/
def SymmetricAlgorithm.family : SymmetricAlgorithm → AlgFamily
  | .Sha256 => .hash
  | .Sha512 => .hash
  | .Sha512_256 => .hash
  | .HmacSha256 => .mac
  | .HmacSha512 => .mac
  | .Aes128Gcm => .aead
  | .Aes256Gcm => .aead
  | .None => .noneFamily

/-- Modelled from the spec: `state.rs` is not under the extracted sources.
The session object of section 3: the bound algorithm, an optional key, an
optional options object, and the running accumulator of absorbed bytes. -/
structure SymmetricState where
  alg : SymmetricAlgorithm
  key : Option SymmetricKey
  options : Option SymmetricOptionsInner
  absorbed : List Nat
  deriving DecidableEq, Repr

/-- Modelled from the spec: `state.rs` is not under the extracted sources.
Section 4.5 Open: the hash family requires `key == None` (else
`KeyNotSupported`); the MAC and AEAD families require a key (else
`KeyRequired`) created for the same algorithm (else `InvalidKey`); the
accumulator starts empty. -/
def SymmetricState.openState (alg : SymmetricAlgorithm) (key : Option SymmetricKey)
    (options : Option SymmetricOptionsInner) : Except CryptoError SymmetricState :=
  match alg.family with
  | .hash =>
    match key with
    | some _ => .error .KeyNotSupported
    | none => .ok ⟨alg, none, options, []⟩
  | .mac | .aead =>
    match key with
    | none => .error .KeyRequired
    | some k =>
      if k.alg = alg then .ok ⟨alg, key, options, []⟩ else .error .InvalidKey
  | .noneFamily => .error .UnsupportedAlgorithm

/-- Modelled from the spec: `state.rs` is not under the extracted sources.
Section 4.5 Absorb (hash/MAC only): appends the caller bytes to the running
accumulator; illegal for the AEAD family (`InvalidOperation`). -/
def SymmetricState.absorb (st : SymmetricState) (data : List Nat) :
    Except CryptoError SymmetricState :=
  match st.alg.family with
  | .hash | .mac => .ok { st with absorbed := st.absorbed ++ data }
  | _ => .error .InvalidOperation

/-- C3: `open` validates the optional key against the algorithm family:
a hash-family algorithm with a key fails `KeyNotSupported`, a MAC- or
AEAD-family algorithm without a key fails `KeyRequired`, and a key created
for a different algorithm fails `InvalidKey`. -/
theorem open_key_validation (alg : SymmetricAlgorithm)
    (options : Option SymmetricOptionsInner) (k : SymmetricKey) :
    (alg.family = .hash →
      SymmetricState.openState alg (some k) options = .error .KeyNotSupported) ∧
    ((alg.family = .mac ∨ alg.family = .aead) →
      SymmetricState.openState alg none options = .error .KeyRequired) ∧
    ((alg.family = .mac ∨ alg.family = .aead) → k.alg ≠ alg →
      SymmetricState.openState alg (some k) options = .error .InvalidKey) := by
  refine ⟨?_, ?_, ?_⟩
  · intro h
    simp [SymmetricState.openState, h]
  · intro h
    rcases h with h | h <;> simp [SymmetricState.openState, h]
  · intro h hne
    rcases h with h | h <;> simp [SymmetricState.openState, h, hne]

/-- Witness for C3 at concrete inputs: SHA-256 with a key, HMAC/SHA-256 and
AES-256-GCM without a key, and AES-128-GCM with an AES-256-GCM key. -/
theorem open_key_validation_witness :
    SymmetricState.openState .Sha256 (some ⟨.Sha256, [0]⟩) none =
      .error .KeyNotSupported ∧
    SymmetricState.openState .HmacSha256 none none = .error .KeyRequired ∧
    SymmetricState.openState .Aes256Gcm none none = .error .KeyRequired ∧
    SymmetricState.openState .Aes128Gcm (some ⟨.Aes256Gcm, List.replicate 32 0⟩)
      none = .error .InvalidKey := by
  refine ⟨(open_key_validation .Sha256 none ⟨.Sha256, [0]⟩).1 (by decide),
    (open_key_validation .HmacSha256 none ⟨.Sha256, [0]⟩).2.1 (Or.inl (by decide)),
    (open_key_validation .Aes256Gcm none ⟨.Sha256, [0]⟩).2.1 (Or.inr (by decide)),
    (open_key_validation .Aes128Gcm none ⟨.Aes256Gcm, List.replicate 32 0⟩).2.2
      (Or.inr (by decide)) (by decide)⟩

/-- Mask to a 32-bit word. -/
def w32 (x : Nat) : Nat := x % 4294967296

/-- Rotate a 32-bit word right by `n` bits (`0 < n < 32`, `x < 2^32`). -/
def rotr32 (n x : Nat) : Nat := w32 ((x >>> n) ||| (x <<< (32 - n)))

/-- The 64 SHA-256 round constants of FIPS 180-4, in decimal. -/
def sha256K : List Nat :=
  [1116352408, 1899447441, 3049323471, 3921009573, 961987163, 1508970993,
   2453635748, 2870763221, 3624381080, 310598401, 607225278, 1426881987,
   1925078388, 2162078206, 2614888103, 3248222580, 3835390401, 4022224774,
   264347078, 604807628, 770255983, 1249150122, 1555081692, 1996064986,
   2554220882, 2821834349, 2952996808, 3210313671, 3336571891, 3584528711,
   113926993, 338241895, 666307205, 773529912, 1294757372, 1396182291,
   1695183700, 1986661051, 2177026350, 2456956037, 2730485921, 2820302411,
   3259730800, 3345764771, 3516065817, 3600352804, 4094571909, 275423344,
   430227734, 506948616, 659060556, 883997877, 958139571, 1322822218,
   1537002063, 1747873779, 1955562222, 2024104815, 2227730452, 2361852424,
   2428436474, 2756734187, 3204031479, 3329325298]

/-- The SHA-256 initial hash value of FIPS 180-4, in decimal. -/
def sha256H0 : List Nat :=
  [1779033703, 3144134277, 1013904242, 2773480762, 1359893119, 2600822924,
   528734635, 1541459225]

/-- Big-endian serialization of a value into `n` bytes. -/
def toBytesBE (n v : Nat) : List Nat :=
  (List.range n).map (fun i => (v >>> (8 * (n - 1 - i))) % 256)

/-- SHA-256 padding: append the 0x80 byte, zero bytes up to 56 mod 64, and
the 8-byte big-endian bit length. -/
def sha256Pad (msg : List Nat) : List Nat :=
  msg ++ 128 :: List.replicate ((119 - msg.length % 64) % 64) 0
      ++ toBytesBE 8 (8 * msg.length)

/-- Group bytes into big-endian 32-bit words. -/
def bytesToWords : List Nat → List Nat
  | a :: b :: c :: d :: rest =>
    (((a * 256 + b) * 256 + c) * 256 + d) :: bytesToWords rest
  | _ => []

/-- Split a word list into 16-word blocks (structural recursion; the padded
input is always a multiple of 16 words, so the final catch-all only handles
ill-formed leftovers). -/
def chunk16 : List Nat → List (List Nat)
  | w1 :: w2 :: w3 :: w4 :: w5 :: w6 :: w7 :: w8 ::
      w9 :: w10 :: w11 :: w12 :: w13 :: w14 :: w15 :: w16 :: rest =>
    [w1, w2, w3, w4, w5, w6, w7, w8, w9, w10, w11, w12, w13, w14, w15, w16] ::
      chunk16 rest
  | [] => []
  | other => [other]

/-- One SHA-256 round on the 8-word working state, with round constant `k`
and schedule word `w`. -/
def sha256Round (st : List Nat) (k w : Nat) : List Nat :=
  match st with
  | [a, b, c, d, e, f, g, h] =>
    let s1 := (rotr32 6 e) ^^^ (rotr32 11 e) ^^^ (rotr32 25 e)
    let ch := (e &&& f) ^^^ ((e ^^^ 4294967295) &&& g)
    let temp1 := w32 (h + s1 + ch + k + w)
    let s0 := (rotr32 2 a) ^^^ (rotr32 13 a) ^^^ (rotr32 22 a)
    let maj := (a &&& b) ^^^ (a &&& c) ^^^ (b &&& c)
    let temp2 := w32 (s0 + maj)
    [w32 (temp1 + temp2), a, b, c, w32 (d + temp1), e, f, g]
  | other => other

/-- Extend a 16-word block to the 64-word SHA-256 message schedule. -/
def sha256Schedule (block : List Nat) : List Nat :=
  (List.range 48).foldl
    (fun ws _ =>
      let n := ws.length
      let w15 := ws.getD (n - 15) 0
      let w2 := ws.getD (n - 2) 0
      let s0 := (rotr32 7 w15) ^^^ (rotr32 18 w15) ^^^ (w15 >>> 3)
      let s1 := (rotr32 17 w2) ^^^ (rotr32 19 w2) ^^^ (w2 >>> 10)
      ws ++ [w32 (ws.getD (n - 16) 0 + s0 + ws.getD (n - 7) 0 + s1)])
    block

/-- Compress one 16-word block into the running hash state. -/
def sha256Compress (hstate block : List Nat) : List Nat :=
  let ws := sha256Schedule block
  let st := (List.zip sha256K ws).foldl (fun s kw => sha256Round s kw.1 kw.2) hstate
  List.zipWith (fun x y => w32 (x + y)) hstate st

/-- SHA-256 of a byte list (FIPS 180-4). -/
def sha256 (msg : List Nat) : List Nat :=
  let blocks := chunk16 (bytesToWords (sha256Pad msg))
  List.flatten ((blocks.foldl sha256Compress sha256H0).map (toBytesBE 4))

/-- Digest length in bytes for the hash family (section 4.5 Squeeze:
fixed-output algorithms require the exact digest length). -/
def digestLen : SymmetricAlgorithm → Nat
  | .Sha256 => 32
  | .Sha512 => 64
  | .Sha512_256 => 32
  | _ => 0

/-- Modelled from the spec: `sha2.rs` is not under the extracted sources.
SHA-256 is implemented per FIPS 180-4 above; SHA-512 and SHA-512/256 are
black-box primitives (section 1 non-goals) whose concrete output values no
claim constrains, modelled as distinct deterministic functions of the
absorbed input built from SHA-256. -/
def hashDigest : SymmetricAlgorithm → List Nat → List Nat
  | .Sha256, msg => sha256 msg
  | .Sha512, msg => sha256 msg ++ sha256 (0 :: msg)
  | .Sha512_256, msg => sha256 (1 :: msg)
  | _, _ => []

/-- Modelled from the spec: `state.rs` and `sha2.rs` are not under the
extracted sources.  Section 4.5 Squeeze (hash only): writes exactly the
requested number of derived bytes, failing `InvalidLength` for an unsupported
length; the digest reflects all prior absorbs. -/
def SymmetricState.squeeze (st : SymmetricState) (outLen : Nat) :
    Except CryptoError (List Nat) :=
  match st.alg.family with
  | .hash =>
    if outLen = digestLen st.alg then .ok (hashDigest st.alg st.absorbed)
    else .error .InvalidLength
  | _ => .error .InvalidOperation

/-- The `test_hash` scenario of `symmetric/mod.rs`: a SHA-256 state absorbs
the bytes of "data", then of "more_data", then squeezes 32 bytes. -/
def hashPipeline : Except CryptoError (List Nat) :=
  match SymmetricState.openState .Sha256 none none with
  | .error e => .error e
  | .ok st =>
    match st.absorb [100, 97, 116, 97] with
    | .error e => .error e
    | .ok st2 =>
      match st2.absorb [109, 111, 114, 101, 95, 100, 97, 116, 97] with
      | .error e => .error e
      | .ok st3 => st3.squeeze 32

/-- C4 counterexample: the digest named by the claim,
e3b0c44298fc1c149afbf4c8996fb92427ae41e4649b934ca495991b7852b855, is the
SHA-256 of the empty string, and the pipeline that absorbs "data" and
"more_data" does not yield it. -/
theorem hash_fixture_counterexample :
    hashPipeline ≠ .ok
      [227, 176, 196, 66, 152, 252, 28, 20, 154, 251, 244, 200, 153, 111,
       185, 36, 39, 174, 65, 228, 100, 155, 147, 76, 164, 149, 153, 27,
       120, 82, 184, 85] := by
  decide

/-- C4 amended: opening a SHA-256 state, absorbing "data" then "more_data",
and squeezing 32 bytes yields exactly the SHA-256 digest of the concatenated
input "datamore_data",
13c40eec22541a155e172010c7fd6ef654e4e138a0c20923f9a91062a27f57b6,
reproducible byte-for-byte. -/
theorem hash_fixture_amended :
    hashPipeline = .ok
      [19, 196, 14, 236, 34, 84, 26, 21, 94, 23, 32, 16, 199, 253, 110,
       246, 84, 228, 225, 56, 160, 194, 9, 35, 249, 169, 16, 98, 162, 127,
       87, 182] := by
  decide

/-- A tag always verifies against its own raw bytes. -/
theorem verify_self (t : SymmetricTag) : t.verify t.raw = .ok () := by
  unfold SymmetricTag.verify
  rw [if_pos ((constantTimeEq_iff _ _).mpr rfl)]

/-- Modelled from the spec: `hmac_sha2.rs` is not under the extracted
sources.  HMAC/SHA-256 and HMAC/SHA-512 are black-box keyed MAC primitives
(section 1 non-goals): deterministic functions of (key, message) with the
algorithm's fixed tag length (32 resp. 64 bytes), modelled here via SHA-256
over a length-prefixed encoding of key and message. -/
def hmacDigest (alg : SymmetricAlgorithm) (key msg : List Nat) : List Nat :=
  match alg with
  | .HmacSha256 => sha256 (key.length :: (key ++ msg))
  | .HmacSha512 =>
    sha256 (key.length :: (key ++ msg)) ++ sha256 (0 :: key.length :: (key ++ msg))
  | _ => []

/-- Modelled from the spec: `state.rs` and `hmac_sha2.rs` are not under the
extracted sources.  Section 4.5 Squeeze tag (MAC only): finalizes the running
HMAC into a tag object without disturbing the state — further absorb and
squeeze_tag calls remain legal, each reflecting the running state at that
point. -/
def SymmetricState.squeezeTag (st : SymmetricState) :
    Except CryptoError (SymmetricState × SymmetricTag) :=
  match st.alg.family with
  | .mac =>
    match st.key with
    | some k => .ok (st, ⟨hmacDigest st.alg k.raw st.absorbed⟩)
    | none => .error .KeyRequired
  | _ => .error .InvalidOperation

/-- C6: squeezing a tag twice from the same absorbed HMAC state with no
intervening absorb yields byte-identical tags, so that verifying the second
tag against the first tag's raw bytes succeeds, and the state remains usable
for further absorbs and squeezes. -/
theorem hmac_squeeze_tag_idempotent (st : SymmetricState) (k : SymmetricKey)
    (hfam : st.alg.family = .mac) (hkey : st.key = some k) :
    ∃ t1 : SymmetricTag, st.squeezeTag = .ok (st, t1) ∧
      ∀ st1 t1', st.squeezeTag = .ok (st1, t1') →
        ∃ t2 : SymmetricTag, st1.squeezeTag = .ok (st1, t2) ∧
          t2.raw = t1'.raw ∧ t2.verify t1'.raw = .ok () ∧
          ∀ data : List Nat, (st1.absorb data).isOk = true := by
  have hsq : st.squeezeTag = .ok (st, ⟨hmacDigest st.alg k.raw st.absorbed⟩) := by
    unfold SymmetricState.squeezeTag
    simp [hfam, hkey]
  refine ⟨_, hsq, ?_⟩
  intro st1 t1' h1
  rw [hsq] at h1
  simp only [Except.ok.injEq, Prod.mk.injEq] at h1
  obtain ⟨hst, ht⟩ := h1
  subst hst
  refine ⟨t1', ?_, rfl, verify_self t1', ?_⟩
  · rw [hsq, ht]
  · intro data
    unfold SymmetricState.absorb
    simp [hfam, Except.isOk, Except.toBool]

/-- Witness for C6 at a concrete HMAC/SHA-512 state with key bytes [7] and
absorbed bytes [1, 2]. -/
theorem hmac_squeeze_tag_idempotent_witness :
    ∃ t1 : SymmetricTag,
      (SymmetricState.mk .HmacSha512 (some ⟨.HmacSha512, [7]⟩) none [1, 2]).squeezeTag
        = .ok (SymmetricState.mk .HmacSha512 (some ⟨.HmacSha512, [7]⟩) none [1, 2], t1) ∧
      ∀ st1 t1',
        (SymmetricState.mk .HmacSha512 (some ⟨.HmacSha512, [7]⟩) none [1, 2]).squeezeTag
          = .ok (st1, t1') →
        ∃ t2 : SymmetricTag, st1.squeezeTag = .ok (st1, t2) ∧
          t2.raw = t1'.raw ∧ t2.verify t1'.raw = .ok () ∧
          ∀ data : List Nat, (st1.absorb data).isOk = true :=
  hmac_squeeze_tag_idempotent
    (SymmetricState.mk .HmacSha512 (some ⟨.HmacSha512, [7]⟩) none [1, 2])
    ⟨.HmacSha512, [7]⟩ (by decide) rfl

/-- Modelled from the spec: `aes_gcm.rs` is not under the extracted sources
and section 1 (non-goals) treats AES-GCM as a black-box AEAD primitive.  The
model's keystream byte at a position is an arbitrary deterministic function
of (key, nonce, position); its concrete values are unconstrained by the
spec. -/
def prfByte (key nonce : List Nat) (i : Nat) : Nat :=
  (key.foldl (fun a x => a * 257 + x) 1 * 65537 +
    nonce.foldl (fun a x => a * 257 + x) 2 * 257 + i) % 256

/-- The first `len` keystream bytes of the modelled AEAD cipher. -/
def keystream (key nonce : List Nat) (len : Nat) : List Nat :=
  (List.range len).map (prfByte key nonce)

/-- GCM authentication-tag length in bytes (section 4.5 `max_tag_len`). -/
def aeadTagLen : Nat := 16

/-- GCM nonce (IV) length in bytes (section 4.5 Open: 12 bytes for GCM). -/
def gcmNonceLen : Nat := 12

/-- Modelled from the spec: the authentication tag of the black-box AEAD
primitive.  It is deterministic in (key, nonce, ciphertext) and accumulates
the whole ciphertext (XOR fold) into its first byte, so any single-bit
change of the ciphertext changes the tag — the tamper-detection property
stated in section 8; the remaining 15 bytes are key/nonce-derived. -/
def gcmTag (key nonce ct : List Nat) : List Nat :=
  (ct.foldl (fun a x => a ^^^ x) 0 ^^^ prfByte key nonce 4096) ::
    (List.range 15).map (fun i => prfByte key nonce (4097 + i))

/-- Modelled from the spec (section 4.5 Encrypt, attached tag): requires
`out.len >= in.len + tag_len` (else `Overflow`, no partial write); writes the
ciphertext followed by the tag, leaving any extra out bytes unchanged. -/
def aeadEncrypt (key nonce out pt : List Nat) :
    Except CryptoError Unit × List Nat :=
  if out.length < pt.length + aeadTagLen then (.error .Overflow, out)
  else
    let ct := List.zipWith (fun x y => x ^^^ y) pt (keystream key nonce pt.length)
    (.ok (), ct ++ gcmTag key nonce ct ++ out.drop (pt.length + aeadTagLen))

/-- Modelled from the spec (section 4.5 Decrypt, attached tag): requires
`in.len >= tag_len` and `out.len >= in.len - tag_len` (else `InvalidLength`,
no partial write); verifies the tag in constant time BEFORE writing any
plaintext, and on authentication failure returns `InvalidTag` with the out
buffer untouched (all-or-nothing release). -/
def aeadDecrypt (key nonce out input : List Nat) :
    Except CryptoError Unit × List Nat :=
  if input.length < aeadTagLen then (.error .InvalidLength, out)
  else if out.length < input.length - aeadTagLen then (.error .InvalidLength, out)
  else
    let ctLen := input.length - aeadTagLen
    let ct := input.take ctLen
    let tagBytes := input.drop ctLen
    if constantTimeEq (gcmTag key nonce ct) tagBytes then
      (.ok (), List.zipWith (fun x y => x ^^^ y) ct (keystream key nonce ct.length)
        ++ out.drop ctLen)
    else (.error .InvalidTag, out)

/-- Modelled from the spec (section 4.5 Encrypt detached): `out.len = in.len`
exactly (else `InvalidLength`); the tag is returned as a separate tag
object. -/
def aeadEncryptDetached (key nonce out pt : List Nat) :
    Except CryptoError SymmetricTag × List Nat :=
  if out.length ≠ pt.length then (.error .InvalidLength, out)
  else
    let ct := List.zipWith (fun x y => x ^^^ y) pt (keystream key nonce pt.length)
    (.ok ⟨gcmTag key nonce ct⟩, ct)

/-- Modelled from the spec (section 4.5 Decrypt detached): `out.len = in.len`
exactly; verifies the detached tag in constant time before writing, failing
`InvalidTag` with the out buffer untouched on authentication failure. -/
def aeadDecryptDetached (key nonce out ct tagBytes : List Nat) :
    Except CryptoError Unit × List Nat :=
  if out.length ≠ ct.length then (.error .InvalidLength, out)
  else if constantTimeEq (gcmTag key nonce ct) tagBytes then
    (.ok (), List.zipWith (fun x y => x ^^^ y) ct (keystream key nonce ct.length))
  else (.error .InvalidTag, out)

/-- The nonce configured on the state's options object, read at use
(section 4.5 Open: a missing AEAD nonce surfaces at use). -/
def SymmetricState.nonceOpt (st : SymmetricState) : Option (List Nat) :=
  st.options.bind SymmetricOptionsInner.nonce

/-- Modelled from the spec: `state.rs` and `aes_gcm.rs` are not under the
extracted sources.  Section 4.5 Encrypt (AEAD only): reads the configured
nonce (missing nonce surfaces as `OptionNotSet`), requires the GCM IV length,
then runs the attached-tag encryption into the out buffer. -/
def SymmetricState.encrypt (st : SymmetricState) (out input : List Nat) :
    Except CryptoError Unit × List Nat :=
  match st.alg.family with
  | .aead =>
    match st.key with
    | none => (.error .KeyRequired, out)
    | some k =>
      match st.nonceOpt with
      | none => (.error .OptionNotSet, out)
      | some n =>
        if n.length = gcmNonceLen then aeadEncrypt k.raw n out input
        else (.error .InvalidLength, out)
  | _ => (.error .InvalidOperation, out)

/-- Modelled from the spec: the attached-tag AEAD decryption of section 4.5,
dispatched like `SymmetricState.encrypt`. -/
def SymmetricState.decrypt (st : SymmetricState) (out input : List Nat) :
    Except CryptoError Unit × List Nat :=
  match st.alg.family with
  | .aead =>
    match st.key with
    | none => (.error .KeyRequired, out)
    | some k =>
      match st.nonceOpt with
      | none => (.error .OptionNotSet, out)
      | some n =>
        if n.length = gcmNonceLen then aeadDecrypt k.raw n out input
        else (.error .InvalidLength, out)
  | _ => (.error .InvalidOperation, out)

/-- Modelled from the spec: the detached-tag AEAD encryption of section 4.5,
dispatched like `SymmetricState.encrypt`. -/
def SymmetricState.encryptDetached (st : SymmetricState) (out input : List Nat) :
    Except CryptoError SymmetricTag × List Nat :=
  match st.alg.family with
  | .aead =>
    match st.key with
    | none => (.error .KeyRequired, out)
    | some k =>
      match st.nonceOpt with
      | none => (.error .OptionNotSet, out)
      | some n =>
        if n.length = gcmNonceLen then aeadEncryptDetached k.raw n out input
        else (.error .InvalidLength, out)
  | _ => (.error .InvalidOperation, out)

/-- Modelled from the spec: the detached-tag AEAD decryption of section 4.5,
dispatched like `SymmetricState.encrypt`. -/
def SymmetricState.decryptDetached (st : SymmetricState) (out ct tagBytes : List Nat) :
    Except CryptoError Unit × List Nat :=
  match st.alg.family with
  | .aead =>
    match st.key with
    | none => (.error .KeyRequired, out)
    | some k =>
      match st.nonceOpt with
      | none => (.error .OptionNotSet, out)
      | some n =>
        if n.length = gcmNonceLen then aeadDecryptDetached k.raw n out ct tagBytes
        else (.error .InvalidLength, out)
  | _ => (.error .InvalidOperation, out)

/-- An options object holding only a nonce, built through
`SymmetricOptions::set` exactly as `test_encryption` does. -/
def optionsWithNonce (nonce : List Nat) : SymmetricOptionsInner :=
  (SymmetricOptionsInner.default.set "nonce" nonce).2

/-- Opening an AEAD state and encrypting with an attached tag into an exactly
sized buffer, as `test_encryption` does; yields the cipher-with-tag bytes. -/
def encryptAttachedPipeline (alg : SymmetricAlgorithm)
    (keyBytes nonce pt : List Nat) : Except CryptoError (List Nat) :=
  match SymmetricState.openState alg (some ⟨alg, keyBytes⟩)
      (some (optionsWithNonce nonce)) with
  | .error e => .error e
  | .ok st =>
    match st.encrypt (List.replicate (pt.length + aeadTagLen) 0) pt with
    | (.error e, _) => .error e
    | (.ok _, cwt) => .ok cwt

/-- Opening a fresh AEAD state and decrypting an attached-tag input into the
given out buffer. -/
def decryptAttachedPipeline (alg : SymmetricAlgorithm)
    (keyBytes nonce out input : List Nat) : Except CryptoError Unit × List Nat :=
  match SymmetricState.openState alg (some ⟨alg, keyBytes⟩)
      (some (optionsWithNonce nonce)) with
  | .error e => (.error e, out)
  | .ok st => st.decrypt out input

/-- Opening an AEAD state and encrypting with a detached tag, as
`test_encryption` does; yields the ciphertext and the pulled raw tag bytes. -/
def encryptDetachedPipeline (alg : SymmetricAlgorithm)
    (keyBytes nonce pt : List Nat) : Except CryptoError (List Nat × List Nat) :=
  match SymmetricState.openState alg (some ⟨alg, keyBytes⟩)
      (some (optionsWithNonce nonce)) with
  | .error e => .error e
  | .ok st =>
    match st.encryptDetached (List.replicate pt.length 0) pt with
    | (.error e, _) => .error e
    | (.ok tag, ct) => .ok (ct, tag.raw)

/-- Opening a fresh AEAD state and decrypting a ciphertext with a detached
tag into the given out buffer. -/
def decryptDetachedPipeline (alg : SymmetricAlgorithm)
    (keyBytes nonce out ct tagBytes : List Nat) :
    Except CryptoError Unit × List Nat :=
  match SymmetricState.openState alg (some ⟨alg, keyBytes⟩)
      (some (optionsWithNonce nonce)) with
  | .error e => (.error e, out)
  | .ok st => st.decryptDetached out ct tagBytes

/-- Encrypt then decrypt with a fresh state, attached-tag mode, exactly as
`test_encryption` drives the engine. -/
def roundTripAttached (alg : SymmetricAlgorithm) (keyBytes nonce pt : List Nat) :
    Except CryptoError (List Nat) :=
  match encryptAttachedPipeline alg keyBytes nonce pt with
  | .error e => .error e
  | .ok cwt =>
    match decryptAttachedPipeline alg keyBytes nonce
        (List.replicate (cwt.length - aeadTagLen) 0) cwt with
    | (.error e, _) => .error e
    | (.ok _, buf) => .ok buf

/-- Encrypt then decrypt with a fresh state, detached-tag mode, exactly as
`test_encryption` drives the engine. -/
def roundTripDetached (alg : SymmetricAlgorithm) (keyBytes nonce pt : List Nat) :
    Except CryptoError (List Nat) :=
  match encryptDetachedPipeline alg keyBytes nonce pt with
  | .error e => .error e
  | .ok ctTag =>
    match decryptDetachedPipeline alg keyBytes nonce
        (List.replicate ctTag.1.length 0) ctTag.1 ctTag.2 with
    | (.error e, _) => .error e
    | (.ok _, buf) => .ok buf

/-- Length of the modelled keystream. -/
theorem keystream_length (key nonce : List Nat) (len : Nat) :
    (keystream key nonce len).length = len := by
  simp [keystream]

/-- The modelled tag always has the GCM tag length. -/
theorem gcmTag_length (key nonce ct : List Nat) :
    (gcmTag key nonce ct).length = 16 := by
  simp [gcmTag]

/-- The ciphertext the modelled cipher produces for a plaintext. -/
def ctOf (key nonce pt : List Nat) : List Nat :=
  List.zipWith (fun x y => x ^^^ y) pt (keystream key nonce pt.length)

/-- The modelled ciphertext has the plaintext's length. -/
theorem ctOf_length (key nonce pt : List Nat) :
    (ctOf key nonce pt).length = pt.length := by
  simp [ctOf, List.length_zipWith, keystream_length]

/-- Setting the nonce option through `SymmetricOptions::set` stores exactly
the nonce field. -/
theorem optionsWithNonce_eq (nonce : List Nat) :
    optionsWithNonce nonce =
      { SymmetricOptionsInner.default with nonce := some nonce } := rfl

/-- Opening an AEAD-family state with a key tagged for the same algorithm
succeeds with an empty accumulator. -/
theorem openState_aead (alg : SymmetricAlgorithm) (hfam : alg.family = .aead)
    (keyBytes : List Nat) (opts : Option SymmetricOptionsInner) :
    SymmetricState.openState alg (some ⟨alg, keyBytes⟩) opts =
      .ok ⟨alg, some ⟨alg, keyBytes⟩, opts, []⟩ := by
  unfold SymmetricState.openState
  simp [hfam]

/-- Both AES-GCM identifiers are AEAD-family. -/
theorem aes_family (alg : SymmetricAlgorithm)
    (halg : alg = .Aes128Gcm ∨ alg = .Aes256Gcm) : alg.family = .aead := by
  rcases halg with h | h <;> subst h <;> rfl

/-- The attached-tag decryption pipeline dispatches to the modelled AEAD
primitive once the state is validly opened with a 12-byte nonce. -/
theorem decryptAttached_dispatch (alg : SymmetricAlgorithm)
    (hfam : alg.family = .aead) (keyBytes nonce out input : List Nat)
    (hn : nonce.length = 12) :
    decryptAttachedPipeline alg keyBytes nonce out input =
      aeadDecrypt keyBytes nonce out input := by
  unfold decryptAttachedPipeline
  rw [openState_aead alg hfam]
  unfold SymmetricState.decrypt
  simp [hfam, SymmetricState.nonceOpt, optionsWithNonce_eq, hn, gcmNonceLen]

/-- The attached-tag encryption pipeline dispatches likewise. -/
theorem encryptAttached_dispatch (alg : SymmetricAlgorithm)
    (hfam : alg.family = .aead) (keyBytes nonce pt : List Nat)
    (hn : nonce.length = 12) :
    encryptAttachedPipeline alg keyBytes nonce pt =
      (match aeadEncrypt keyBytes nonce
          (List.replicate (pt.length + aeadTagLen) 0) pt with
        | (.error e, _) => .error e
        | (.ok _, cwt) => .ok cwt) := by
  unfold encryptAttachedPipeline
  rw [openState_aead alg hfam]
  unfold SymmetricState.encrypt
  simp [hfam, SymmetricState.nonceOpt, optionsWithNonce_eq, hn, gcmNonceLen]

/-- The detached-tag encryption pipeline dispatches likewise. -/
theorem encryptDetached_dispatch (alg : SymmetricAlgorithm)
    (hfam : alg.family = .aead) (keyBytes nonce pt : List Nat)
    (hn : nonce.length = 12) :
    encryptDetachedPipeline alg keyBytes nonce pt =
      (match aeadEncryptDetached keyBytes nonce
          (List.replicate pt.length 0) pt with
        | (.error e, _) => .error e
        | (.ok tag, ct) => .ok (ct, tag.raw)) := by
  unfold encryptDetachedPipeline
  rw [openState_aead alg hfam]
  unfold SymmetricState.encryptDetached
  simp [hfam, SymmetricState.nonceOpt, optionsWithNonce_eq, hn, gcmNonceLen]

/-- The detached-tag decryption pipeline dispatches likewise. -/
theorem decryptDetached_dispatch (alg : SymmetricAlgorithm)
    (hfam : alg.family = .aead) (keyBytes nonce out ct tagBytes : List Nat)
    (hn : nonce.length = 12) :
    decryptDetachedPipeline alg keyBytes nonce out ct tagBytes =
      aeadDecryptDetached keyBytes nonce out ct tagBytes := by
  unfold decryptDetachedPipeline
  rw [openState_aead alg hfam]
  unfold SymmetricState.decryptDetached
  simp [hfam, SymmetricState.nonceOpt, optionsWithNonce_eq, hn, gcmNonceLen]

/-- Attached-tag encryption into an exactly sized buffer writes ciphertext
followed by tag. -/
theorem aeadEncrypt_exact (keyBytes nonce pt : List Nat) :
    aeadEncrypt keyBytes nonce (List.replicate (pt.length + aeadTagLen) 0) pt =
      (.ok (), ctOf keyBytes nonce pt ++ gcmTag keyBytes nonce (ctOf keyBytes nonce pt)) := by
  unfold aeadEncrypt
  rw [if_neg (by simp)]
  simp [ctOf, List.drop_eq_nil_of_le]

/-- Detached-tag encryption into an exactly sized buffer yields the
ciphertext and the separate tag. -/
theorem aeadEncryptDetached_exact (keyBytes nonce pt : List Nat) :
    aeadEncryptDetached keyBytes nonce (List.replicate pt.length 0) pt =
      (.ok ⟨gcmTag keyBytes nonce (ctOf keyBytes nonce pt)⟩, ctOf keyBytes nonce pt) := by
  unfold aeadEncryptDetached
  rw [if_neg (by simp)]
  simp [ctOf]

/-- Attached-tag decryption of `ct ++ tagBytes` with a full-length tag and a
sufficient out buffer reduces to the constant-time tag check. -/
theorem aeadDecrypt_split (keyBytes nonce out ct tagBytes : List Nat)
    (htag : tagBytes.length = 16) (hout : out.length = ct.length) :
    aeadDecrypt keyBytes nonce out (ct ++ tagBytes) =
      if constantTimeEq (gcmTag keyBytes nonce ct) tagBytes then
        (.ok (), List.zipWith (fun x y => x ^^^ y) ct
          (keystream keyBytes nonce ct.length) ++ out.drop ct.length)
      else (.error .InvalidTag, out) := by
  unfold aeadDecrypt
  have hlen : (ct ++ tagBytes).length = ct.length + 16 := by
    simp [List.length_append, htag]
  rw [if_neg (by rw [hlen]; unfold aeadTagLen; omega)]
  rw [if_neg (by rw [hlen, hout]; unfold aeadTagLen; omega)]
  have hctLen : (ct ++ tagBytes).length - aeadTagLen = ct.length := by
    rw [hlen]; unfold aeadTagLen; omega
  simp only [hctLen]
  rw [List.take_left' rfl, List.drop_left' rfl]

/-- XOR distributes out of a left XOR fold. -/
theorem foldl_xor_out (t : List Nat) (a d : Nat) :
    t.foldl (fun x y => x ^^^ y) (a ^^^ d) =
      t.foldl (fun x y => x ^^^ y) a ^^^ d := by
  induction t generalizing a with
  | nil => rfl
  | cons x t ih =>
    simp only [List.foldl_cons]
    rw [show a ^^^ d ^^^ x = a ^^^ x ^^^ d by
      rw [Nat.xor_assoc, Nat.xor_assoc, Nat.xor_comm d x], ih]

/-- XORing one element of a list XORs the whole fold by the same delta. -/
theorem foldl_xor_set (l : List Nat) (i d acc : Nat) (hi : i < l.length) :
    (l.set i (l.getD i 0 ^^^ d)).foldl (fun x y => x ^^^ y) acc =
      l.foldl (fun x y => x ^^^ y) acc ^^^ d := by
  induction l generalizing i acc with
  | nil => simp at hi
  | cons x t ih =>
    cases i with
    | zero =>
      simp only [List.set_cons_zero, List.getD_cons_zero, List.foldl_cons]
      rw [show acc ^^^ (x ^^^ d) = acc ^^^ x ^^^ d from (Nat.xor_assoc acc x d).symm,
        foldl_xor_out]
    | succ i =>
      simp only [List.set_cons_succ, List.getD_cons_succ, List.foldl_cons]
      exact ih i (acc ^^^ x) (by simpa using hi)

/-- Undoing the keystream XOR recovers the plaintext. -/
theorem zipWith_xor_xor (pt ks : List Nat) (h : pt.length ≤ ks.length) :
    List.zipWith (fun x y => x ^^^ y)
      (List.zipWith (fun x y => x ^^^ y) pt ks) ks = pt := by
  induction pt generalizing ks with
  | nil => simp
  | cons x pt ih =>
    cases ks with
    | nil => simp at h
    | cons k ks =>
      simp only [List.zipWith_cons_cons]
      rw [Nat.xor_cancel_right, ih ks (by simpa using h)]

/-- Flip bit `b` of the byte at position `i` of a byte list. -/
def flipBit (l : List Nat) (i b : Nat) : List Nat :=
  l.set i (l.getD i 0 ^^^ 2 ^ b)

/-- Flipping a bit preserves the length. -/
theorem flipBit_length (l : List Nat) (i b : Nat) :
    (flipBit l i b).length = l.length := by
  simp [flipBit]

/-- Flipping a bit inside the left part of an append stays in the left
part. -/
theorem flipBit_append_left (l₁ l₂ : List Nat) (i b : Nat) (h : i < l₁.length) :
    flipBit (l₁ ++ l₂) i b = flipBit l₁ i b ++ l₂ := by
  have hg : (l₁ ++ l₂).getD i 0 = l₁.getD i 0 := by
    rw [List.getD_eq_getElem?_getD, List.getD_eq_getElem?_getD,
      List.getElem?_append_left h]
  unfold flipBit
  rw [hg, List.set_append_left _ _ h]

/-- Flipping a bit inside the right part of an append stays in the right
part. -/
theorem flipBit_append_right (l₁ l₂ : List Nat) (i b : Nat) (h : l₁.length ≤ i) :
    flipBit (l₁ ++ l₂) i b = l₁ ++ flipBit l₂ (i - l₁.length) b := by
  have hg : (l₁ ++ l₂).getD i 0 = l₂.getD (i - l₁.length) 0 := by
    rw [List.getD_eq_getElem?_getD, List.getD_eq_getElem?_getD,
      List.getElem?_append_right h]
  unfold flipBit
  rw [hg, List.set_append_right _ _ h]

/-- Flipping a bit at a valid position changes the list. -/
theorem flipBit_ne (l : List Nat) (i b : Nat) (hi : i < l.length) :
    flipBit l i b ≠ l := by
  intro he
  have h2 : (flipBit l i b).getD i 0 = l.getD i 0 ^^^ 2 ^ b := by
    unfold flipBit
    rw [List.getD_eq_getElem?_getD, List.getElem?_set_self (by simpa using hi)]
    rfl
  rw [he] at h2
  have h3 := congrArg (fun z => l.getD i 0 ^^^ z) h2.symm
  simp only [Nat.xor_cancel_left, Nat.xor_self] at h3
  exact absurd h3 (Nat.pos_iff_ne_zero.mp (Nat.two_pow_pos b))

/-- XOR-flipping one ciphertext byte changes the modelled tag. -/
theorem gcmTag_flip_ne (keyBytes nonce ct : List Nat) (i b : Nat)
    (hi : i < ct.length) :
    gcmTag keyBytes nonce (flipBit ct i b) ≠ gcmTag keyBytes nonce ct := by
  intro he
  unfold gcmTag at he
  simp only [List.cons.injEq] at he
  obtain ⟨hh, _⟩ := he
  have h1 : (flipBit ct i b).foldl (fun x y => x ^^^ y) 0 =
      ct.foldl (fun x y => x ^^^ y) 0 := Nat.xor_left_inj.mp hh
  have h2 : (flipBit ct i b).foldl (fun x y => x ^^^ y) 0 =
      ct.foldl (fun x y => x ^^^ y) 0 ^^^ 2 ^ b := by
    unfold flipBit
    exact foldl_xor_set ct i (2 ^ b) 0 hi
  rw [h2] at h1
  have h3 := congrArg (fun z => ct.foldl (fun x y => x ^^^ y) 0 ^^^ z) h1
  simp only [Nat.xor_cancel_left, Nat.xor_self] at h3
  exact absurd h3 (Nat.pos_iff_ne_zero.mp (Nat.two_pow_pos b))

/-- Decrypting the modelled ciphertext with the same key and nonce recovers
the plaintext. -/
theorem ctOf_unxor (keyBytes nonce pt : List Nat) :
    List.zipWith (fun x y => x ^^^ y) (ctOf keyBytes nonce pt)
      (keystream keyBytes nonce (ctOf keyBytes nonce pt).length) = pt := by
  rw [ctOf_length]
  unfold ctOf
  exact zipWith_xor_xor pt (keystream keyBytes nonce pt.length)
    (by rw [keystream_length])

/-- C1: for every AES-GCM key, 12-byte nonce, and plaintext, opening an AEAD
state with that key and nonce, encrypting, then opening a fresh state with
the same key and nonce and decrypting, returns exactly the original
plaintext — in attached-tag mode and in detached-tag mode. -/
theorem aead_roundtrip (alg : SymmetricAlgorithm)
    (halg : alg = .Aes128Gcm ∨ alg = .Aes256Gcm)
    (keyBytes nonce pt : List Nat) (hn : nonce.length = 12) :
    roundTripAttached alg keyBytes nonce pt = .ok pt ∧
    roundTripDetached alg keyBytes nonce pt = .ok pt := by
  have hfam := aes_family alg halg
  constructor
  · unfold roundTripAttached
    rw [encryptAttached_dispatch alg hfam keyBytes nonce pt hn, aeadEncrypt_exact]
    have hcwt : (ctOf keyBytes nonce pt ++
        gcmTag keyBytes nonce (ctOf keyBytes nonce pt)).length - aeadTagLen =
        (ctOf keyBytes nonce pt).length := by
      simp [List.length_append, gcmTag_length, aeadTagLen]
    simp only [hcwt]
    rw [decryptAttached_dispatch alg hfam keyBytes nonce _ _ hn,
      aeadDecrypt_split keyBytes nonce _ _ _ (gcmTag_length _ _ _) (by simp),
      if_pos ((constantTimeEq_iff _ _).mpr rfl), ctOf_unxor]
    simp
  · unfold roundTripDetached
    rw [encryptDetached_dispatch alg hfam keyBytes nonce pt hn,
      aeadEncryptDetached_exact]
    simp only []
    rw [decryptDetached_dispatch alg hfam keyBytes nonce _ _ _ hn]
    unfold aeadDecryptDetached
    rw [if_neg (by simp [ctOf_length]), if_pos ((constantTimeEq_iff _ _).mpr rfl),
      ctOf_unxor]

/-- Witness for C1 at concrete inputs: AES-256-GCM with a 32-byte key of 7s,
the 12-byte nonce of 42s, and the plaintext "test". -/
theorem aead_roundtrip_witness :
    roundTripAttached .Aes256Gcm (List.replicate 32 7) (List.replicate 12 42)
      [116, 101, 115, 116] = .ok [116, 101, 115, 116] ∧
    roundTripDetached .Aes256Gcm (List.replicate 32 7) (List.replicate 12 42)
      [116, 101, 115, 116] = .ok [116, 101, 115, 116] :=
  aead_roundtrip .Aes256Gcm (Or.inr rfl) (List.replicate 32 7)
    (List.replicate 12 42) [116, 101, 115, 116] (by decide)

/-- C2: for every bit flipped in the ciphertext or in the attached/detached
tag of a valid AES-GCM encryption, decrypting with a fresh state under the
same key and nonce fails with `InvalidTag`, and the out buffer is returned
exactly as it was passed in — no partial or altered plaintext is released. -/
theorem aead_tamper_detection (alg : SymmetricAlgorithm)
    (halg : alg = .Aes128Gcm ∨ alg = .Aes256Gcm)
    (keyBytes nonce pt out : List Nat) (hn : nonce.length = 12)
    (hout : out.length = pt.length) (i b : Nat) :
    (∀ cwt, encryptAttachedPipeline alg keyBytes nonce pt = .ok cwt →
      i < cwt.length →
      decryptAttachedPipeline alg keyBytes nonce out (flipBit cwt i b) =
        (.error .InvalidTag, out)) ∧
    (∀ ct tagBytes,
      encryptDetachedPipeline alg keyBytes nonce pt = .ok (ct, tagBytes) →
      i < ct.length →
      decryptDetachedPipeline alg keyBytes nonce out (flipBit ct i b) tagBytes =
        (.error .InvalidTag, out)) ∧
    (∀ ct tagBytes,
      encryptDetachedPipeline alg keyBytes nonce pt = .ok (ct, tagBytes) →
      i < tagBytes.length →
      decryptDetachedPipeline alg keyBytes nonce out ct (flipBit tagBytes i b) =
        (.error .InvalidTag, out)) := by
  have hfam := aes_family alg halg
  have hear : encryptAttachedPipeline alg keyBytes nonce pt =
      .ok (ctOf keyBytes nonce pt ++
        gcmTag keyBytes nonce (ctOf keyBytes nonce pt)) := by
    rw [encryptAttached_dispatch alg hfam keyBytes nonce pt hn, aeadEncrypt_exact]
  have hedr : encryptDetachedPipeline alg keyBytes nonce pt =
      .ok (ctOf keyBytes nonce pt,
        gcmTag keyBytes nonce (ctOf keyBytes nonce pt)) := by
    rw [encryptDetached_dispatch alg hfam keyBytes nonce pt hn,
      aeadEncryptDetached_exact]
  refine ⟨?_, ?_, ?_⟩
  · intro cwt hcwt hi
    rw [hear] at hcwt
    injection hcwt with hc
    subst hc
    rw [List.length_append, ctOf_length, gcmTag_length] at hi
    rcases Nat.lt_or_ge i (ctOf keyBytes nonce pt).length with hlt | hge
    · rw [flipBit_append_left _ _ _ _ hlt,
        decryptAttached_dispatch alg hfam keyBytes nonce out _ hn,
        aeadDecrypt_split keyBytes nonce out _ _ (gcmTag_length _ _ _)
          (by rw [flipBit_length, ctOf_length, hout]),
        if_neg (fun hc => gcmTag_flip_ne keyBytes nonce (ctOf keyBytes nonce pt)
          i b hlt ((constantTimeEq_iff _ _).mp hc))]
    · rw [flipBit_append_right _ _ _ _ hge,
        decryptAttached_dispatch alg hfam keyBytes nonce out _ hn,
        aeadDecrypt_split keyBytes nonce out _ _
          (by rw [flipBit_length, gcmTag_length])
          (by rw [ctOf_length, hout]),
        if_neg ?hneg]
      case hneg =>
        intro hc
        have heq := (constantTimeEq_iff _ _).mp hc
        have hj : i - (ctOf keyBytes nonce pt).length <
            (gcmTag keyBytes nonce (ctOf keyBytes nonce pt)).length := by
          have hcl : (ctOf keyBytes nonce pt).length = pt.length := ctOf_length _ _ _
          rw [gcmTag_length]
          omega
        exact flipBit_ne _ _ b hj heq.symm
  · intro ct tagBytes henc hi
    rw [hedr] at henc
    injection henc with hc
    injection hc with hc1 hc2
    subst hc1
    subst hc2
    rw [decryptDetached_dispatch alg hfam keyBytes nonce out _ _ hn]
    unfold aeadDecryptDetached
    rw [if_neg (by simp [flipBit_length, ctOf_length, hout]),
      if_neg (fun hc => gcmTag_flip_ne keyBytes nonce (ctOf keyBytes nonce pt)
        i b hi ((constantTimeEq_iff _ _).mp hc))]
  · intro ct tagBytes henc hi
    rw [hedr] at henc
    injection henc with hc
    injection hc with hc1 hc2
    subst hc1
    subst hc2
    rw [decryptDetached_dispatch alg hfam keyBytes nonce out _ _ hn]
    unfold aeadDecryptDetached
    rw [if_neg (by simp [ctOf_length, hout]),
      if_neg (fun hc => flipBit_ne _ i b hi
        (((constantTimeEq_iff _ _).mp hc).symm))]

/-- Witness for C2 at concrete inputs: AES-256-GCM with a 32-byte key of 7s,
the 12-byte nonce of 42s and plaintext "test"; flipping bit 0 of byte 0 of
the attached cipher-with-tag, of the detached ciphertext, and of the detached
tag each makes decryption fail with `InvalidTag`, leaving the out buffer
[9, 9, 9, 9] untouched. -/
theorem aead_tamper_detection_witness :
    decryptAttachedPipeline .Aes256Gcm (List.replicate 32 7)
      (List.replicate 12 42) [9, 9, 9, 9]
      (flipBit [175, 185, 174, 170, 201, 220, 221, 222, 223, 224, 225, 226,
        227, 228, 229, 230, 231, 232, 233, 234] 0 0) =
      (.error .InvalidTag, [9, 9, 9, 9]) ∧
    decryptDetachedPipeline .Aes256Gcm (List.replicate 32 7)
      (List.replicate 12 42) [9, 9, 9, 9] (flipBit [175, 185, 174, 170] 0 0)
      [201, 220, 221, 222, 223, 224, 225, 226, 227, 228, 229, 230, 231, 232,
        233, 234] = (.error .InvalidTag, [9, 9, 9, 9]) ∧
    decryptDetachedPipeline .Aes256Gcm (List.replicate 32 7)
      (List.replicate 12 42) [9, 9, 9, 9] [175, 185, 174, 170]
      (flipBit [201, 220, 221, 222, 223, 224, 225, 226, 227, 228, 229, 230,
        231, 232, 233, 234] 0 0) = (.error .InvalidTag, [9, 9, 9, 9]) := by
  have h := aead_tamper_detection .Aes256Gcm (Or.inr rfl) (List.replicate 32 7)
    (List.replicate 12 42) [116, 101, 115, 116] [9, 9, 9, 9] (by decide)
    (by decide) 0 0
  exact ⟨h.1 _ (by decide) (by decide),
    h.2.1 _ _ (by decide) (by decide),
    h.2.2 _ _ (by decide) (by decide)⟩
